import Mathlib

/-!
Verification of the opening-arena repertoire engine
(`opening_arena_working_105.py`) against its specification.

The chess rules themselves live in an external collaborator (the
`chess` library): positions, legality, move application, FEN rendering,
SAN rendering and checkmate detection.  We therefore embed the program
over an abstract collaborator interface `ChessApi` whose operations
mirror exactly the calls the Python code makes:

  * `fen`        — `board.fen()`
  * `turnWhite`  — `board.turn == chess.WHITE`
  * `isLegal`    — `move in board.legal_moves`
  * `pushOk`     — `board.push(move)` raises no exception
  * `push`       — the board after `board.push(move)` when it succeeds
  * `san`        — `board.san(move)`
  * `pushSan`    — replaying one recorded SAN string on a board
  * `isCheckmate`— `board.is_checkmate()`

Moves are carried as their UCI strings, since the trie stores
`move.uci()` and the simulator reparses them with `Move.from_uci`
(which succeeds on every string produced by `move.uci()`).
-/

structure ChessApi (Pos : Type) where
  startPos : Pos
  fen : Pos → String
  turnWhite : Pos → Bool
  isLegal : Pos → String → Bool
  pushOk : Pos → String → Bool
  push : Pos → String → Pos
  san : Pos → String → String
  pushSan : Pos → String → Pos
  isCheckmate : Pos → Bool

/-- A move dictionary: UCI move → child FEN, in insertion order
(Python `dict` preserves insertion order). -/
abbrev MoveDict := List (String × String)

/-- Embeds `RepertoireTree.tree`: FEN → move dictionary, in insertion order. -/
abbrev RepTree := List (String × MoveDict)

/-- Embeds `move_uci in self.tree[key_fen]` and `self.tree[key_fen][move_uci]`. -/
def lookupMove : MoveDict → String → Option String
  | [], _ => none
  | (m', c') :: rest, m => if m' = m then some c' else lookupMove rest m

/-- Embeds `key_fen in self.tree` and `self.tree[key_fen]`. -/
def lookupFen : RepTree → String → Option MoveDict
  | [], _ => none
  | (k', d) :: rest, k => if k' = k then some d else lookupFen rest k

/-- Embeds `if move_uci not in self.tree[key_fen]: self.tree[key_fen][move_uci] = child_fen`:
a new move is appended at the end; an existing move leaves the dict unchanged. -/
def dictInsert : MoveDict → String → String → MoveDict
  | [], m, c => [(m, c)]
  | (m', c') :: rest, m, c =>
    if m' = m then (m', c') :: rest else (m', c') :: dictInsert rest m c

/-- Embeds `RepertoireTree.insert(key_fen, move_uci, child_fen)`. -/
def treeInsert : RepTree → String → String → String → RepTree
  | [], k, m, c => [(k, [(m, c)])]
  | (k', d) :: rest, k, m, c =>
    if k' = k then (k', dictInsert d m c) :: rest
    else (k', d) :: treeInsert rest k m c

/-!
PGN game trees as handed to `process_white_node` / `process_black_node`:
a node carries a list of variations, each variation carrying its move
(`variation.move`, as UCI) and its own subtree.
-/

mutual
inductive PgnNode : Type where
  | mk : PgnForest → PgnNode

inductive PgnForest : Type where
  | nil : PgnForest
  | cons : String → PgnNode → PgnForest → PgnForest
end

/-!
Embedding of `process_white_node(node, board, tree)`: for White-turn plies it records
the edge without any legality check — only a raised exception from
`board.push` (modelled by `pushOk = false`) skips a variation.  The
second, outer `board.push(move)` is *not* guarded: when it raises, the
exception propagates out of the whole build, modelled by `none`.
-/

mutual
def processWhiteNode {Pos : Type} (api : ChessApi Pos) :
    PgnNode → Pos → RepTree → Option RepTree
  | PgnNode.mk f, b, t => processWhiteForest api f b t

def processWhiteForest {Pos : Type} (api : ChessApi Pos) :
    PgnForest → Pos → RepTree → Option RepTree
  | PgnForest.nil, _, t => some t
  | PgnForest.cons m child rest, b, t =>
    if api.turnWhite b then
      if api.pushOk b m then
        (processWhiteNode api child (api.push b m)
            (treeInsert t (api.fen b) m (api.fen (api.push b m)))).bind
          (fun t2 => processWhiteForest api rest b t2)
      else
        processWhiteForest api rest b t
    else
      if api.pushOk b m then
        (processWhiteNode api child (api.push b m) t).bind
          (fun t2 => processWhiteForest api rest b t2)
      else
        none
end

/-!
Embedding of `process_black_node(node, board, tree)`: for Black-turn plies the move
is first checked against `new_board.legal_moves`; an illegal move is
skipped together with its whole subtree (`continue`).  The outer
`board.push(move)` is wrapped in `try/except AssertionError: continue`,
so this traversal never propagates an exception.
-/

mutual
def processBlackNode {Pos : Type} (api : ChessApi Pos) :
    PgnNode → Pos → RepTree → RepTree
  | PgnNode.mk f, b, t => processBlackForest api f b t

def processBlackForest {Pos : Type} (api : ChessApi Pos) :
    PgnForest → Pos → RepTree → RepTree
  | PgnForest.nil, _, t => t
  | PgnForest.cons m child rest, b, t =>
    if api.turnWhite b then
      if api.pushOk b m then
        processBlackForest api rest b (processBlackNode api child (api.push b m) t)
      else
        processBlackForest api rest b t
    else
      if api.isLegal b m then
        if api.pushOk b m then
          let t1 := treeInsert t (api.fen b) m (api.fen (api.push b m))
          processBlackForest api rest b (processBlackNode api child (api.push b m) t1)
        else
          processBlackForest api rest b t
      else
        processBlackForest api rest b t
end

/-- Embeds `build_white_tree`: every game starts from a fresh `chess.Board()`. -/
def buildWhiteList {Pos : Type} (api : ChessApi Pos) :
    List PgnNode → RepTree → Option RepTree
  | [], t => some t
  | g :: gs, t =>
    (processWhiteNode api g api.startPos t).bind (fun t' => buildWhiteList api gs t')

/-- Embeds `build_black_tree`: every game starts from a fresh `chess.Board()`. -/
def buildBlackList {Pos : Type} (api : ChessApi Pos) :
    List PgnNode → RepTree → RepTree
  | [], t => t
  | g :: gs, t => buildBlackList api gs (processBlackNode api g api.startPos t)

/-- Which `break` (or missing-fuel case) ended the `while True` loop of
`simulate_game`.  The Python function distinguishes these outcomes only
in its debug log, but the control flow is exactly this trichotomy. -/
inductive SimReason : Type where
  | outOfBook : Bool → SimReason
  | illegalCandidate : Bool → SimReason
  | fuelOut : SimReason
deriving DecidableEq

/-- Embeds `simulate_game(white_tree, black_tree)`, with explicit fuel standing
for the unbounded `while True`.  Each iteration looks the current FEN up
in the side-to-move's tree, takes `list(dict.keys())[0]` — only the first
candidate — plays it if legal, and otherwise breaks. -/
def simulateFuel {Pos : Type} (api : ChessApi Pos) (wt bt : RepTree) :
    Nat → Pos → List String → Pos × List String × SimReason
  | 0, b, sans => (b, sans, SimReason.fuelOut)
  | Nat.succ n, b, sans =>
    if api.turnWhite b then
      match lookupFen wt (api.fen b) with
      | some ((m, _) :: _) =>
        if api.isLegal b m then
          simulateFuel api wt bt n (api.push b m) (sans ++ [api.san b m])
        else
          (b, sans, SimReason.illegalCandidate true)
      | some [] => (b, sans, SimReason.outOfBook true)
      | none => (b, sans, SimReason.outOfBook true)
    else
      match lookupFen bt (api.fen b) with
      | some ((m, _) :: _) =>
        if api.isLegal b m then
          simulateFuel api wt bt n (api.push b m) (sans ++ [api.san b m])
        else
          (b, sans, SimReason.illegalCandidate false)
      | some [] => (b, sans, SimReason.outOfBook false)
      | none => (b, sans, SimReason.outOfBook false)

/-- Outcome of the result phase of `main` (Phase 3): either the
deterministic mate record, or a statistics lookup keyed by the final FEN
and the caller-supplied rating brackets. -/
inductive Outcome : Type where
  | mateRecord : Nat → Nat → Nat → Outcome
  | statsLookup : String → String → Outcome
deriving DecidableEq

/-- Phase 3 of `main`: `if board.is_checkmate(): ... else: query_lichess(...)`. -/
def classifyResult {Pos : Type} (api : ChessApi Pos) (b : Pos) (ratings : String) :
    Outcome :=
  if api.isCheckmate b then
    if api.turnWhite b then Outcome.mateRecord 0 0 1
    else Outcome.mateRecord 1 0 0
  else
    Outcome.statsLookup (api.fen b) ratings

/-!
A small concrete collaborator used to instantiate the theorems below.
Positions are ply counters; FENs are strings of `n` letters `a`, so
the ply index is recoverable from the FEN (as the real FEN's fullmove
and turn fields make it in chess).
-/

def natApi : ChessApi Nat where
  startPos := 0
  fen n := String.mk (List.replicate n 'a')
  turnWhite n := n % 2 == 0
  isLegal _ m := m == "b"
  pushOk _ m := !(m == "z")
  push n _ := n + 1
  san _ m := m
  pushSan n _ := n + 1
  isCheckmate n := decide (5 ≤ n)

/-- Relation: `t` extends to `t'`: every stored candidate list survives as a
left factor of the corresponding list in `t'` (inserts only append). -/
def treeLe (t t' : RepTree) : Prop :=
  ∀ k d, lookupFen t k = some d → ∃ e, lookupFen t' k = some (d ++ e)

/-- Every FEN key of `t` satisfies `P` (used for side-to-move invariants). -/
def allKeys (P : String → Prop) (t : RepTree) : Prop :=
  ∀ e ∈ t, P e.1

/-- Every stored edge (key, move, child) of `t` satisfies `E`. -/
def allEdges (E : String → String → String → Prop) (t : RepTree) : Prop :=
  ∀ e ∈ t, ∀ mc ∈ e.2, E e.1 mc.1 mc.2

/-- Predicate `allKeys` lifted over a possibly-crashing build (`none` = the build
raised, so there is no tree to constrain). -/
def allKeysO (P : String → Prop) : Option RepTree → Prop
  | none => True
  | some t => allKeys P t

/-- Predicate `allEdges` lifted over a possibly-crashing build. -/
def allEdgesO (E : String → String → String → Prop) : Option RepTree → Prop
  | none => True
  | some t => allEdges E t

/-- At key `k` the candidate dictionary starts with the mainline edge
`(m1, c1)` and also contains the variation move `m2` further on. -/
def mainlineFirst (t : RepTree) (k m1 c1 m2 : String) : Prop :=
  ∃ rest, lookupFen t k = some ((m1, c1) :: rest) ∧ (lookupMove rest m2).isSome = true

/-- Replaying a recorded move history from the starting position through
the Position collaborator. -/
def replaySans {Pos : Type} (api : ChessApi Pos) (sans : List String) : Pos :=
  List.foldl api.pushSan api.startPos sans


/-! ### Basic lemmas about the trie operations -/

theorem dictInsert_of_found {d : MoveDict} {m : String} {c0 : String} (c : String)
    (h : lookupMove d m = some c0) : dictInsert d m c = d := by
  induction d with
  | nil => simp [lookupMove] at h
  | cons hd rest ih =>
    obtain ⟨m', c'⟩ := hd
    by_cases hm : m' = m
    · simp [dictInsert, hm]
    · simp [lookupMove, hm] at h
      simp [dictInsert, hm, ih h]

theorem dictInsert_of_absent {d : MoveDict} {m : String} (c : String)
    (h : lookupMove d m = none) : dictInsert d m c = d ++ [(m, c)] := by
  induction d with
  | nil => simp [dictInsert]
  | cons hd rest ih =>
    obtain ⟨m', c'⟩ := hd
    by_cases hm : m' = m
    · simp [lookupMove, hm] at h
    · simp [lookupMove, hm] at h
      simp [dictInsert, hm, ih h]

theorem dictInsert_append (d : MoveDict) (m c : String) :
    ∃ e, dictInsert d m c = d ++ e := by
  cases h : lookupMove d m with
  | none => exact ⟨[(m, c)], dictInsert_of_absent c h⟩
  | some c0 => exact ⟨[], by simp [dictInsert_of_found c h]⟩

theorem lookupMove_dictInsert_isSome (d : MoveDict) (m c : String) :
    (lookupMove (dictInsert d m c) m).isSome = true := by
  induction d with
  | nil => simp [dictInsert, lookupMove]
  | cons hd rest ih =>
    obtain ⟨m', c'⟩ := hd
    by_cases hm : m' = m
    · simp [dictInsert, hm, lookupMove]
    · simp [dictInsert, hm, lookupMove, ih]

theorem lookupMove_append_of_some {d : MoveDict} {m c : String} (e : MoveDict)
    (h : lookupMove d m = some c) : lookupMove (d ++ e) m = some c := by
  induction d with
  | nil => simp [lookupMove] at h
  | cons hd rest ih =>
    obtain ⟨m', c'⟩ := hd
    by_cases hm : m' = m
    · simp [lookupMove, hm] at h ⊢; exact h
    · simp [lookupMove, hm] at h ⊢; exact ih h

theorem mem_dictInsert {d : MoveDict} {m c : String} {mc : String × String}
    (h : mc ∈ dictInsert d m c) : mc ∈ d ∨ mc = (m, c) := by
  cases hl : lookupMove d m with
  | some c0 =>
    rw [dictInsert_of_found c hl] at h
    exact Or.inl h
  | none =>
    rw [dictInsert_of_absent c hl] at h
    simpa using h

theorem lookupFen_treeInsert_found {t : RepTree} {k : String} {d : MoveDict}
    (m c : String) (h : lookupFen t k = some d) :
    lookupFen (treeInsert t k m c) k = some (dictInsert d m c) := by
  induction t with
  | nil => simp [lookupFen] at h
  | cons hd rest ih =>
    obtain ⟨k', d'⟩ := hd
    by_cases hk : k' = k
    · simp [lookupFen, hk] at h
      simp [treeInsert, hk, lookupFen, h]
    · simp [lookupFen, hk] at h
      simp [treeInsert, hk, lookupFen, ih h]

theorem lookupFen_treeInsert_new {t : RepTree} {k : String} (m c : String)
    (h : lookupFen t k = none) :
    lookupFen (treeInsert t k m c) k = some [(m, c)] := by
  induction t with
  | nil => simp [treeInsert, lookupFen]
  | cons hd rest ih =>
    obtain ⟨k', d'⟩ := hd
    by_cases hk : k' = k
    · simp [lookupFen, hk] at h
    · simp [lookupFen, hk] at h
      simp [treeInsert, hk, lookupFen, ih h]

theorem lookupFen_treeInsert_other {t : RepTree} {k k' : String} (m c : String)
    (h : k' ≠ k) : lookupFen (treeInsert t k m c) k' = lookupFen t k' := by
  induction t with
  | nil => simp [treeInsert, lookupFen, Ne.symm h]
  | cons hd rest ih =>
    obtain ⟨k0, d0⟩ := hd
    by_cases hk : k0 = k
    · subst hk
      simp [treeInsert, lookupFen, Ne.symm h]
    · by_cases hk' : k0 = k'
      · subst hk'
        simp [treeInsert, hk, lookupFen]
      · simp [treeInsert, hk, lookupFen, hk', ih]

theorem treeLe_refl (t : RepTree) : treeLe t t := by
  intro k d h
  exact ⟨[], by simp [h]⟩

theorem treeLe_trans {t1 t2 t3 : RepTree} (h12 : treeLe t1 t2) (h23 : treeLe t2 t3) :
    treeLe t1 t3 := by
  intro k d h
  obtain ⟨e, he⟩ := h12 k d h
  obtain ⟨e', he'⟩ := h23 k (d ++ e) he
  exact ⟨e ++ e', by simp [he']⟩

theorem treeLe_treeInsert (t : RepTree) (k m c : String) :
    treeLe t (treeInsert t k m c) := by
  intro k' d h
  by_cases hk : k' = k
  · subst hk
    obtain ⟨e, he⟩ := dictInsert_append d m c
    exact ⟨e, by rw [lookupFen_treeInsert_found m c h, he]⟩
  · exact ⟨[], by simp [lookupFen_treeInsert_other m c hk, h]⟩

theorem lookupFen_mem {t : RepTree} {k : String} {d : MoveDict}
    (h : lookupFen t k = some d) : (k, d) ∈ t := by
  induction t with
  | nil => simp [lookupFen] at h
  | cons hd rest ih =>
    obtain ⟨k', d'⟩ := hd
    by_cases hk : k' = k
    · simp [lookupFen, hk] at h
      simp [hk, h]
    · simp [lookupFen, hk] at h
      simp [ih h]

theorem allKeys_treeInsert {P : String → Prop} {t : RepTree} {k : String}
    (m c : String) (ht : allKeys P t) (hk : P k) :
    allKeys P (treeInsert t k m c) := by
  induction t with
  | nil =>
    intro e he
    simp [treeInsert] at he
    subst he
    exact hk
  | cons hd rest ih =>
    obtain ⟨k', d'⟩ := hd
    have hhd : P k' := ht (k', d') (by simp)
    have htr : allKeys P rest := fun e he => ht e (by simp [he])
    intro e he
    by_cases hkk : k' = k
    · subst hkk
      simp [treeInsert] at he
      rcases he with he | he
      · subst he; exact hhd
      · exact htr e he
    · simp [treeInsert, hkk] at he
      rcases he with he | he
      · subst he; exact hhd
      · exact ih htr e he

theorem allEdges_treeInsert {E : String → String → String → Prop} {t : RepTree}
    {k m c : String} (ht : allEdges E t) (hk : E k m c) :
    allEdges E (treeInsert t k m c) := by
  induction t with
  | nil =>
    intro e he mc hmc
    simp [treeInsert] at he
    subst he
    simp at hmc
    subst hmc
    exact hk
  | cons hd rest ih =>
    obtain ⟨k', d'⟩ := hd
    have hhd : ∀ mc ∈ d', E k' mc.1 mc.2 := fun mc h => ht (k', d') (by simp) mc h
    have htr : allEdges E rest := fun e he => ht e (by simp [he])
    intro e he mc hmc
    by_cases hkk : k' = k
    · subst hkk
      simp [treeInsert] at he
      rcases he with he | he
      · subst he
        rcases mem_dictInsert hmc with h' | h'
        · exact hhd mc h'
        · subst h'
          exact hk
      · exact htr e he mc hmc
    · simp [treeInsert, hkk] at he
      rcases he with he | he
      · subst he; exact hhd mc hmc
      · exact ih htr e he mc hmc

/-! ### Invariant preservation through the indexing traversals -/

mutual
theorem processWhiteNode_inv {Pos : Type} (api : ChessApi Pos) (P : RepTree → Prop)
    (hins : ∀ t b m, api.turnWhite b = true → api.pushOk b m = true → P t →
      P (treeInsert t (api.fen b) m (api.fen (api.push b m))))
    (g : PgnNode) (b : Pos) (t t' : RepTree)
    (h : processWhiteNode api g b t = some t') (hp : P t) : P t' := by
  cases g with
  | mk f => exact processWhiteForest_inv api P hins f b t t' h hp

theorem processWhiteForest_inv {Pos : Type} (api : ChessApi Pos) (P : RepTree → Prop)
    (hins : ∀ t b m, api.turnWhite b = true → api.pushOk b m = true → P t →
      P (treeInsert t (api.fen b) m (api.fen (api.push b m))))
    (f : PgnForest) (b : Pos) (t t' : RepTree)
    (h : processWhiteForest api f b t = some t') (hp : P t) : P t' := by
  cases f with
  | nil =>
    simp [processWhiteForest] at h
    subst h
    exact hp
  | cons m child rest =>
    rw [processWhiteForest] at h
    by_cases hw : api.turnWhite b
    · rw [if_pos hw] at h
      by_cases hpk : api.pushOk b m
      · rw [if_pos hpk] at h
        rcases Option.bind_eq_some.mp h with ⟨t2, hnode, hrest⟩
        have hp1 := hins t b m hw hpk hp
        have hp2 := processWhiteNode_inv api P hins child (api.push b m) _ t2 hnode hp1
        exact processWhiteForest_inv api P hins rest b t2 t' hrest hp2
      · rw [if_neg hpk] at h
        exact processWhiteForest_inv api P hins rest b t t' h hp
    · rw [if_neg hw] at h
      by_cases hpk : api.pushOk b m
      · rw [if_pos hpk] at h
        rcases Option.bind_eq_some.mp h with ⟨t2, hnode, hrest⟩
        have hp2 := processWhiteNode_inv api P hins child (api.push b m) t t2 hnode hp
        exact processWhiteForest_inv api P hins rest b t2 t' hrest hp2
      · rw [if_neg hpk] at h
        simp at h
end

mutual
theorem processBlackNode_inv {Pos : Type} (api : ChessApi Pos) (P : RepTree → Prop)
    (hins : ∀ t b m, api.turnWhite b = false → api.isLegal b m = true →
      api.pushOk b m = true → P t →
      P (treeInsert t (api.fen b) m (api.fen (api.push b m))))
    (g : PgnNode) (b : Pos) (t : RepTree) (hp : P t) :
    P (processBlackNode api g b t) := by
  cases g with
  | mk f => exact processBlackForest_inv api P hins f b t hp

theorem processBlackForest_inv {Pos : Type} (api : ChessApi Pos) (P : RepTree → Prop)
    (hins : ∀ t b m, api.turnWhite b = false → api.isLegal b m = true →
      api.pushOk b m = true → P t →
      P (treeInsert t (api.fen b) m (api.fen (api.push b m))))
    (f : PgnForest) (b : Pos) (t : RepTree) (hp : P t) :
    P (processBlackForest api f b t) := by
  cases f with
  | nil => exact hp
  | cons m child rest =>
    rw [processBlackForest]
    by_cases hw : api.turnWhite b
    · rw [if_pos hw]
      by_cases hpk : api.pushOk b m
      · rw [if_pos hpk]
        exact processBlackForest_inv api P hins rest b _
          (processBlackNode_inv api P hins child (api.push b m) t hp)
      · rw [if_neg hpk]
        exact processBlackForest_inv api P hins rest b t hp
    · rw [if_neg hw]
      by_cases hl : api.isLegal b m
      · rw [if_pos hl]
        by_cases hpk : api.pushOk b m
        · rw [if_pos hpk]
          have hp1 := hins t b m (by simpa using hw) hl hpk hp
          exact processBlackForest_inv api P hins rest b _
            (processBlackNode_inv api P hins child (api.push b m) _ hp1)
        · rw [if_neg hpk]
          exact processBlackForest_inv api P hins rest b t hp
      · rw [if_neg hl]
        exact processBlackForest_inv api P hins rest b t hp
end

theorem processWhiteNode_le {Pos : Type} (api : ChessApi Pos) (g : PgnNode)
    (b : Pos) (t t' : RepTree) (h : processWhiteNode api g b t = some t') :
    treeLe t t' :=
  processWhiteNode_inv api (treeLe t)
    (fun t0 b0 m0 _ _ hp =>
      treeLe_trans hp (treeLe_treeInsert t0 (api.fen b0) m0 (api.fen (api.push b0 m0))))
    g b t t' h (treeLe_refl t)

theorem buildWhiteList_inv {Pos : Type} (api : ChessApi Pos) (P : RepTree → Prop)
    (hins : ∀ t b m, api.turnWhite b = true → api.pushOk b m = true → P t →
      P (treeInsert t (api.fen b) m (api.fen (api.push b m))))
    (gs : List PgnNode) (t t' : RepTree)
    (h : buildWhiteList api gs t = some t') (hp : P t) : P t' := by
  induction gs generalizing t with
  | nil =>
    simp [buildWhiteList] at h
    subst h
    exact hp
  | cons g gs ih =>
    rw [buildWhiteList] at h
    rcases Option.bind_eq_some.mp h with ⟨t2, hnode, hrest⟩
    exact ih t2 hrest (processWhiteNode_inv api P hins g api.startPos t t2 hnode hp)

theorem buildBlackList_inv {Pos : Type} (api : ChessApi Pos) (P : RepTree → Prop)
    (hins : ∀ t b m, api.turnWhite b = false → api.isLegal b m = true →
      api.pushOk b m = true → P t →
      P (treeInsert t (api.fen b) m (api.fen (api.push b m))))
    (gs : List PgnNode) (t : RepTree) (hp : P t) :
    P (buildBlackList api gs t) := by
  induction gs generalizing t with
  | nil => exact hp
  | cons g gs ih =>
    rw [buildBlackList]
    exact ih _ (processBlackNode_inv api P hins g api.startPos t hp)

/-! ### Further helper lemmas -/

theorem treeInsert_of_found {t : RepTree} {k : String} {d : MoveDict} {c0 : String}
    (m c : String) (hd : lookupFen t k = some d) (hm : lookupMove d m = some c0) :
    treeInsert t k m c = t := by
  induction t with
  | nil => simp [lookupFen] at hd
  | cons hd' rest ih =>
    obtain ⟨k', d'⟩ := hd'
    by_cases hk : k' = k
    · simp [lookupFen, hk] at hd
      subst hd
      simp [treeInsert, hk, dictInsert_of_found c hm]
    · simp [lookupFen, hk] at hd
      simp [treeInsert, hk, ih hd]

theorem countP_mono_of_imp {α : Type} (l : List α) (p q : α → Bool)
    (himp : ∀ x, q x = true → p x = true) : l.countP q ≤ l.countP p := by
  induction l with
  | nil => simp
  | cons a l ih =>
    simp only [List.countP_cons]
    cases hq : q a with
    | true => simp [himp a hq]; omega
    | false => simp [hq]; omega

theorem countP_lt_of_mem {α : Type} (l : List α) (p q : α → Bool) (a : α)
    (ha : a ∈ l) (hpa : p a = true) (hqa : q a = false)
    (himp : ∀ x, q x = true → p x = true) : l.countP q < l.countP p := by
  induction l with
  | nil => simp at ha
  | cons x l ih =>
    rcases List.mem_cons.mp ha with hx | hx
    · subst hx
      simp only [List.countP_cons, hpa, hqa]
      have := countP_mono_of_imp l p q himp
      simp
      omega
    · have h1 := ih hx
      simp only [List.countP_cons]
      cases hq : q x with
      | true => simp [himp x hq]; omega
      | false => simp [hq]; cases hp : p x <;> simp <;> omega

theorem simulate_replay_aux {Pos : Type} (api : ChessApi Pos)
    (hsan : ∀ p m, api.isLegal p m = true → api.pushSan p (api.san p m) = api.push p m)
    (wt bt : RepTree) :
    ∀ (fuel : Nat) (b : Pos) (sans : List String),
      b = List.foldl api.pushSan api.startPos sans →
      (simulateFuel api wt bt fuel b sans).1 =
        List.foldl api.pushSan api.startPos (simulateFuel api wt bt fuel b sans).2.1 := by
  intro fuel
  induction fuel with
  | zero =>
    intro b sans h
    simpa [simulateFuel] using h
  | succ n ih =>
    intro b sans h
    by_cases hw : api.turnWhite b
    · cases hlk : lookupFen wt (api.fen b) with
      | none => simpa [simulateFuel, hw, hlk] using h
      | some d =>
        cases d with
        | nil => simpa [simulateFuel, hw, hlk] using h
        | cons mc rest =>
          obtain ⟨m, c⟩ := mc
          by_cases hleg : api.isLegal b m
          · have hstep : api.push b m =
                List.foldl api.pushSan api.startPos (sans ++ [api.san b m]) := by
              rw [List.foldl_append, ← h]
              simp [hsan b m hleg]
            simp only [simulateFuel, hw, hlk, hleg, if_true]
            exact ih _ _ hstep
          · simpa [simulateFuel, hw, hlk, hleg] using h
    · cases hlk : lookupFen bt (api.fen b) with
      | none => simpa [simulateFuel, hw, hlk] using h
      | some d =>
        cases d with
        | nil => simpa [simulateFuel, hw, hlk] using h
        | cons mc rest =>
          obtain ⟨m, c⟩ := mc
          by_cases hleg : api.isLegal b m
          · have hstep : api.push b m =
                List.foldl api.pushSan api.startPos (sans ++ [api.san b m]) := by
              rw [List.foldl_append, ← h]
              simp [hsan b m hleg]
            simp only [simulateFuel, hw, hlk, hleg, if_true]
            exact ih _ _ hstep
          · simpa [simulateFuel, hw, hlk, hleg] using h

theorem simulate_fuel_enough {Pos : Type} (api : ChessApi Pos)
    (plyIdxS : String → Nat)
    (hply : ∀ p m, plyIdxS (api.fen (api.push p m)) = plyIdxS (api.fen p) + 1)
    (wt bt : RepTree) :
    ∀ (n : Nat) (b : Pos) (sans : List String),
      (wt ++ bt).countP (fun e => decide (plyIdxS (api.fen b) ≤ plyIdxS e.1)) < n →
      (simulateFuel api wt bt n b sans).2.2 ≠ SimReason.fuelOut := by
  intro n
  induction n with
  | zero =>
    intro b sans h
    exact absurd h (Nat.not_lt_zero _)
  | succ n ih =>
    intro b sans hmu
    by_cases hw : api.turnWhite b
    · cases hlk : lookupFen wt (api.fen b) with
      | none => simp [simulateFuel, hw, hlk]
      | some d =>
        cases d with
        | nil => simp [simulateFuel, hw, hlk]
        | cons mc rest =>
          obtain ⟨m, c⟩ := mc
          by_cases hleg : api.isLegal b m
          · have hmem : ((api.fen b), (m, c) :: rest) ∈ wt ++ bt :=
              List.mem_append.mpr (Or.inl (lookupFen_mem hlk))
            have hdec : (wt ++ bt).countP
                  (fun e => decide (plyIdxS (api.fen (api.push b m)) ≤ plyIdxS e.1)) <
                (wt ++ bt).countP
                  (fun e => decide (plyIdxS (api.fen b) ≤ plyIdxS e.1)) := by
              rw [hply b m]
              apply countP_lt_of_mem _ _ _ ((api.fen b), (m, c) :: rest) hmem
              · simp
              · simp
              · intro x hx
                simp at hx ⊢
                omega
            simp only [simulateFuel, hw, hlk, hleg, if_true]
            exact ih _ _ (lt_of_lt_of_le hdec (Nat.lt_succ_iff.mp hmu))
          · simp [simulateFuel, hw, hlk, hleg]
    · cases hlk : lookupFen bt (api.fen b) with
      | none => simp [simulateFuel, hw, hlk]
      | some d =>
        cases d with
        | nil => simp [simulateFuel, hw, hlk]
        | cons mc rest =>
          obtain ⟨m, c⟩ := mc
          by_cases hleg : api.isLegal b m
          · have hmem : ((api.fen b), (m, c) :: rest) ∈ wt ++ bt :=
              List.mem_append.mpr (Or.inr (lookupFen_mem hlk))
            have hdec : (wt ++ bt).countP
                  (fun e => decide (plyIdxS (api.fen (api.push b m)) ≤ plyIdxS e.1)) <
                (wt ++ bt).countP
                  (fun e => decide (plyIdxS (api.fen b) ≤ plyIdxS e.1)) := by
              rw [hply b m]
              apply countP_lt_of_mem _ _ _ ((api.fen b), (m, c) :: rest) hmem
              · simp
              · simp
              · intro x hx
                simp at hx ⊢
                omega
            simp only [simulateFuel, hw, hlk, hleg, if_true]
            exact ih _ _ (lt_of_lt_of_le hdec (Nat.lt_succ_iff.mp hmu))
          · simp [simulateFuel, hw, hlk, hleg]

/-! ### Claim theorems -/

/-- C1 counterexample: at the start position White's tree holds two
candidates in insertion order; the first ("a") is illegal and the second
("b") is legal, yet the simulation terminates in the ILLEGAL_CANDIDATE
state with no move played — the code tests only `list(keys)[0]`,
contradicting "terminates in ILLEGAL_CANDIDATE only if every candidate is
illegal, never after testing just the first candidate". -/
theorem c1_counterexample :
    lookupFen [("", [("a", "x"), ("b", "x")])] (natApi.fen 0) =
      some [("a", "x"), ("b", "x")] ∧
    natApi.isLegal 0 "b" = true ∧
    simulateFuel natApi [("", [("a", "x"), ("b", "x")])] [] 5 0 [] =
      (0, [], SimReason.illegalCandidate true) :=
  ⟨by decide, by decide, by decide⟩

/-- C1 (amended): the simulator examines only the first candidate in
insertion order for the side to move.  If that first candidate is legal
in the actual current position it is played; if it is illegal the
simulation terminates at once in the ILLEGAL_CANDIDATE state, without
testing any later candidate. -/
theorem c1_first_candidate_only {Pos : Type} (api : ChessApi Pos) (wt bt : RepTree)
    (n : Nat) (b : Pos) (sans : List String) (m c : String) (rest : MoveDict) :
    (api.turnWhite b = true → lookupFen wt (api.fen b) = some ((m, c) :: rest) →
      (api.isLegal b m = false →
        simulateFuel api wt bt (n + 1) b sans =
          (b, sans, SimReason.illegalCandidate true)) ∧
      (api.isLegal b m = true →
        simulateFuel api wt bt (n + 1) b sans =
          simulateFuel api wt bt n (api.push b m) (sans ++ [api.san b m]))) ∧
    (api.turnWhite b = false → lookupFen bt (api.fen b) = some ((m, c) :: rest) →
      (api.isLegal b m = false →
        simulateFuel api wt bt (n + 1) b sans =
          (b, sans, SimReason.illegalCandidate false)) ∧
      (api.isLegal b m = true →
        simulateFuel api wt bt (n + 1) b sans =
          simulateFuel api wt bt n (api.push b m) (sans ++ [api.san b m]))) := by
  constructor
  · intro hw hlk
    constructor <;> intro hleg <;> simp [simulateFuel, hw, hlk, hleg]
  · intro hw hlk
    constructor <;> intro hleg <;> simp [simulateFuel, hw, hlk, hleg]

/-- Witness for C1 (amended) at concrete inputs. -/
theorem c1_first_candidate_only_witness :
    simulateFuel natApi [("", [("a", "x"), ("b", "x")])] [] 3 0 [] =
      (0, [], SimReason.illegalCandidate true) ∧
    simulateFuel natApi [("", [("b", "x")])] [] 3 0 [] =
      simulateFuel natApi [("", [("b", "x")])] [] 2 1 ["b"] :=
  ⟨((c1_first_candidate_only natApi [("", [("a", "x"), ("b", "x")])] [] 2 0 []
      "a" "x" [("b", "x")]).1 (by decide) (by decide)).1 (by decide),
   ((c1_first_candidate_only natApi [("", [("b", "x")])] [] 2 0 []
      "b" "x" []).1 (by decide) (by decide)).2 (by decide)⟩

/-- C2 counterexample: a White-turn recorded move that is illegal at the
position implied by its ancestors ("a" at the start position) but whose
push succeeds is nevertheless inserted into the white trie —
`process_white_node` performs no legality check, contradicting "for every
side, a recorded move that is illegal ... is skipped: it is not inserted
into the trie". -/
theorem c2_counterexample :
    natApi.turnWhite 0 = true ∧
    natApi.isLegal 0 "a" = false ∧
    processWhiteNode natApi
        (PgnNode.mk (PgnForest.cons "a" (PgnNode.mk PgnForest.nil) PgnForest.nil)) 0 [] =
      some [("", [("a", "a")])] :=
  ⟨by decide, by decide, by decide⟩

/-- C2 (amended): during Black-side indexing a recorded Black-turn move
that is illegal at the position implied by its ancestors is skipped — not
inserted, its subtree not indexed, and indexing continues with the
sibling branches.  During White-side indexing no legality check is made:
a variation is skipped in that fashion only when `board.push` raises
(`pushOk = false`); an illegal but pushable White move is inserted. -/
theorem c2_skip_behavior {Pos : Type} (api : ChessApi Pos) (m : String)
    (child : PgnNode) (rest : PgnForest) (b : Pos) (t : RepTree) :
    (api.turnWhite b = false → api.isLegal b m = false →
      processBlackForest api (PgnForest.cons m child rest) b t =
        processBlackForest api rest b t) ∧
    (api.turnWhite b = true → api.pushOk b m = false →
      processWhiteForest api (PgnForest.cons m child rest) b t =
        processWhiteForest api rest b t) := by
  constructor
  · intro hw hl
    simp [processBlackForest, hw, hl]
  · intro hw hp
    simp [processWhiteForest, hw, hp]

/-- Witness for C2 (amended) at concrete inputs. -/
theorem c2_skip_behavior_witness :
    processBlackForest natApi
        (PgnForest.cons "a" (PgnNode.mk PgnForest.nil) PgnForest.nil) 1 [] =
      processBlackForest natApi PgnForest.nil 1 [] ∧
    processWhiteForest natApi
        (PgnForest.cons "z" (PgnNode.mk PgnForest.nil) PgnForest.nil) 0 [] =
      processWhiteForest natApi PgnForest.nil 0 [] :=
  ⟨(c2_skip_behavior natApi "a" (PgnNode.mk PgnForest.nil) PgnForest.nil 1 []).1
      (by decide) (by decide),
   (c2_skip_behavior natApi "z" (PgnNode.mk PgnForest.nil) PgnForest.nil 0 []).2
      (by decide) (by decide)⟩

/-- C5: trie insertion is idempotent and first-wins — reinserting a
(position, move) pair already present leaves the whole trie unchanged
(so the original candidate, its priority slot and its first-recorded
child key all survive, whatever child the new insertion proposes), while
inserting a different move at an already-populated position appends it
after the existing candidates. -/
theorem c5_insert_idempotent_append (t : RepTree) (k m c m' c' : String)
    (d : MoveDict) (c0 : String)
    (hd : lookupFen t k = some d)
    (hm : lookupMove d m = some c0)
    (hm' : lookupMove d m' = none) :
    treeInsert t k m c = t ∧
    lookupFen (treeInsert t k m' c') k = some (d ++ [(m', c')]) :=
  ⟨treeInsert_of_found m c hd hm,
   by rw [lookupFen_treeInsert_found m' c' hd, dictInsert_of_absent c' hm']⟩

/-- Witness for C5 at concrete inputs (note the reinsertion proposes the
different child "y" and still changes nothing). -/
theorem c5_insert_idempotent_append_witness :
    treeInsert [("k", [("a", "x")])] "k" "a" "y" = [("k", [("a", "x")])] ∧
    lookupFen (treeInsert [("k", [("a", "x")])] "k" "b" "y") "k" =
      some [("a", "x"), ("b", "y")] :=
  c5_insert_idempotent_append [("k", [("a", "x")])] "k" "a" "y" "b" "y"
    [("a", "x")] "x" (by decide) (by decide) (by decide)

/-- C6: when the final position is checkmate the program emits the
deterministic single-game record — 0/0/1 if White is the checkmated side
to move, 1/0/0 if Black is — and no statistics lookup happens; every
non-checkmate terminal position is handed to the external statistics
lookup together with the caller-supplied rating brackets. -/
theorem c6_mate_classification {Pos : Type} (api : ChessApi Pos) (b : Pos)
    (ratings : String) :
    (api.isCheckmate b = true → api.turnWhite b = true →
      classifyResult api b ratings = Outcome.mateRecord 0 0 1) ∧
    (api.isCheckmate b = true → api.turnWhite b = false →
      classifyResult api b ratings = Outcome.mateRecord 1 0 0) ∧
    (api.isCheckmate b = false →
      classifyResult api b ratings = Outcome.statsLookup (api.fen b) ratings) := by
  refine ⟨fun hm hw => ?_, fun hm hw => ?_, fun hm => ?_⟩
  · simp [classifyResult, hm, hw]
  · simp [classifyResult, hm, hw]
  · simp [classifyResult, hm]

/-- Witness for C6 at concrete inputs. -/
theorem c6_mate_classification_witness :
    classifyResult natApi 5 "1200" = Outcome.mateRecord 1 0 0 ∧
    classifyResult natApi 6 "1200" = Outcome.mateRecord 0 0 1 ∧
    classifyResult natApi 0 "1200" = Outcome.statsLookup (natApi.fen 0) "1200" :=
  ⟨(c6_mate_classification natApi 5 "1200").2.1 (by decide) (by decide),
   (c6_mate_classification natApi 6 "1200").1 (by decide) (by decide),
   (c6_mate_classification natApi 0 "1200").2.2 (by decide)⟩

/-- C8: when the white trie has no entry (or an empty candidate set) for
the starting position, the simulation terminates immediately out-of-book
for White, with an empty move history and the starting position as the
final position. -/
theorem c8_empty_book_out_of_book_white {Pos : Type} (api : ChessApi Pos)
    (wt bt : RepTree) (fuel : Nat)
    (hstart : api.turnWhite api.startPos = true)
    (hlook : lookupFen wt (api.fen api.startPos) = none ∨
      lookupFen wt (api.fen api.startPos) = some []) :
    simulateFuel api wt bt (fuel + 1) api.startPos [] =
      (api.startPos, [], SimReason.outOfBook true) := by
  rcases hlook with h | h <;> simp [simulateFuel, hstart, h]

/-- Witness for C8 at concrete inputs. -/
theorem c8_empty_book_out_of_book_white_witness :
    simulateFuel natApi [] [] 1 0 [] = (0, [], SimReason.outOfBook true) :=
  c8_empty_book_out_of_book_white natApi [] [] 0 (by decide) (Or.inl (by decide))

/-- C3: for every pair of finite repertoire tries the simulation
terminates.  Chess FENs carry the side to move and the fullmove counter,
so each half-move strictly advances the ply index readable off the FEN
(`hply`); since every iteration consumes a key of one of the two finite
tries at a strictly larger ply index, fuel exceeding the total number of
trie entries is never exhausted — the `while True` loop always reaches
one of its `break`s. -/
theorem c3_simulation_terminates {Pos : Type} (api : ChessApi Pos)
    (plyIdxS : String → Nat)
    (hply : ∀ p m, plyIdxS (api.fen (api.push p m)) = plyIdxS (api.fen p) + 1)
    (wt bt : RepTree) :
    (simulateFuel api wt bt ((wt ++ bt).length + 1) api.startPos []).2.2 ≠
      SimReason.fuelOut :=
  simulate_fuel_enough api plyIdxS hply wt bt _ api.startPos []
    (Nat.lt_succ_of_le (List.countP_le_length _))

/-- Witness for C3 at concrete inputs. -/
theorem c3_simulation_terminates_witness :
    (simulateFuel natApi [("", [("x", "a")])] [] 2 0 []).2.2 ≠ SimReason.fuelOut :=
  c3_simulation_terminates natApi String.length
    (by
      intro p m
      show (List.replicate (p + 1) 'a').length = (List.replicate p 'a').length + 1
      simp)
    [("", [("x", "a")])] []

/-- C4: round-trip — replaying the move history returned by the
simulation, in order, from the starting position through the Position
collaborator reproduces exactly the final position key.  `hsan` states
that the collaborator replays a SAN string it itself produced for a
legal move as that move (SAN rendering is unambiguous). -/
theorem c4_round_trip {Pos : Type} (api : ChessApi Pos)
    (hsan : ∀ p m, api.isLegal p m = true → api.pushSan p (api.san p m) = api.push p m)
    (wt bt : RepTree) (fuel : Nat) :
    api.fen (replaySans api (simulateFuel api wt bt fuel api.startPos []).2.1) =
      api.fen (simulateFuel api wt bt fuel api.startPos []).1 := by
  have h := simulate_replay_aux api hsan wt bt fuel api.startPos [] (by simp)
  rw [replaySans, ← h]

/-- Witness for C4 at concrete inputs. -/
theorem c4_round_trip_witness :
    natApi.fen (replaySans natApi
        (simulateFuel natApi [("", [("b", "x")])] [] 3 0 []).2.1) =
      natApi.fen (simulateFuel natApi [("", [("b", "x")])] [] 3 0 []).1 :=
  c4_round_trip natApi (fun _ _ _ => rfl) [("", [("b", "x")])] [] 3

/-- C9: side-to-move key invariant — with `fenTurn` reading the side to
move off a FEN (as the real FEN encodes it), every key of a white trie
built from any games has White to move and every key of a black trie has
Black to move: insertions happen only under the matching turn test. -/
theorem c9_side_to_move_invariant {Pos : Type} (api : ChessApi Pos)
    (fenTurn : String → Bool)
    (hft : ∀ p, fenTurn (api.fen p) = api.turnWhite p)
    (gw gb : List PgnNode) :
    allKeysO (fun k => fenTurn k = true) (buildWhiteList api gw []) ∧
    allKeys (fun k => fenTurn k = false) (buildBlackList api gb []) := by
  constructor
  · cases hres : buildWhiteList api gw [] with
    | none => simp [allKeysO]
    | some t' =>
      simp only [allKeysO]
      refine buildWhiteList_inv api (allKeys fun k => fenTurn k = true) ?_ gw [] t' hres ?_
      · intro t0 b0 m0 hw _ hpre
        exact allKeys_treeInsert _ _ hpre (by rw [hft]; exact hw)
      · intro e he
        simp at he
  · refine buildBlackList_inv api (allKeys fun k => fenTurn k = false) ?_ gb [] ?_
    · intro t0 b0 m0 hb _ _ hpre
      exact allKeys_treeInsert _ _ hpre (by rw [hft]; exact hb)
    · intro e he
      simp at he

/-- Witness for C9 at concrete inputs. -/
theorem c9_side_to_move_invariant_witness :
    allKeysO (fun k => (k.length % 2 == 0) = true)
      (buildWhiteList natApi
        [PgnNode.mk (PgnForest.cons "a" (PgnNode.mk PgnForest.nil) PgnForest.nil)] []) ∧
    allKeys (fun k => (k.length % 2 == 0) = false)
      (buildBlackList natApi
        [PgnNode.mk (PgnForest.cons "a"
          (PgnNode.mk (PgnForest.cons "b" (PgnNode.mk PgnForest.nil) PgnForest.nil))
          PgnForest.nil)] []) :=
  c9_side_to_move_invariant natApi (fun s => s.length % 2 == 0)
    (by
      intro p
      show ((List.replicate p 'a').length % 2 == 0) = (p % 2 == 0)
      rw [List.length_replicate])
    [PgnNode.mk (PgnForest.cons "a" (PgnNode.mk PgnForest.nil) PgnForest.nil)]
    [PgnNode.mk (PgnForest.cons "a"
      (PgnNode.mk (PgnForest.cons "b" (PgnNode.mk PgnForest.nil) PgnForest.nil))
      PgnForest.nil)]

/-- C10: child-key consistency — with `unfen` recovering the position
denoted by a canonical key (keys are collision-free), every edge
(key, move, child) of a built trie has child key exactly the key of the
position obtained by applying the move to the position denoted by the
parent key; first-wins conflict resolution preserves this since the kept
first edge was itself recorded that way. -/
theorem c10_child_key_consistency {Pos : Type} (api : ChessApi Pos)
    (unfen : String → Pos)
    (hu : ∀ p, unfen (api.fen p) = p)
    (gw gb : List PgnNode) :
    allEdgesO (fun k m c => c = api.fen (api.push (unfen k) m))
      (buildWhiteList api gw []) ∧
    allEdges (fun k m c => c = api.fen (api.push (unfen k) m))
      (buildBlackList api gb []) := by
  constructor
  · cases hres : buildWhiteList api gw [] with
    | none => simp [allEdgesO]
    | some t' =>
      simp only [allEdgesO]
      refine buildWhiteList_inv api
        (allEdges fun k m c => c = api.fen (api.push (unfen k) m)) ?_ gw [] t' hres ?_
      · intro t0 b0 m0 _ _ hpre
        exact allEdges_treeInsert hpre (by rw [hu])
      · intro e he
        simp at he
  · refine buildBlackList_inv api
      (allEdges fun k m c => c = api.fen (api.push (unfen k) m)) ?_ gb [] ?_
    · intro t0 b0 m0 _ _ _ hpre
      exact allEdges_treeInsert hpre (by rw [hu])
    · intro e he
      simp at he

/-- Witness for C10 at concrete inputs. -/
theorem c10_child_key_consistency_witness :
    allEdgesO (fun k m c => c = natApi.fen (natApi.push k.length m))
      (buildWhiteList natApi
        [PgnNode.mk (PgnForest.cons "a" (PgnNode.mk PgnForest.nil) PgnForest.nil)] []) ∧
    allEdges (fun k m c => c = natApi.fen (natApi.push k.length m))
      (buildBlackList natApi
        [PgnNode.mk (PgnForest.cons "a"
          (PgnNode.mk (PgnForest.cons "b" (PgnNode.mk PgnForest.nil) PgnForest.nil))
          PgnForest.nil)] []) :=
  c10_child_key_consistency natApi (fun s => s.length)
    (by
      intro p
      show (List.replicate p 'a').length = p
      rw [List.length_replicate])
    [PgnNode.mk (PgnForest.cons "a" (PgnNode.mk PgnForest.nil) PgnForest.nil)]
    [PgnNode.mk (PgnForest.cons "a"
      (PgnNode.mk (PgnForest.cons "b" (PgnNode.mk PgnForest.nil) PgnForest.nil))
      PgnForest.nil)]

/-- C7: variation capture with rollback — indexing a game whose mainline
move `m1` and alternate variation move `m2` branch from the same
White-turn position records both as distinct candidates under that
position's key, mainline first (each sibling is traversed from the same
restored pre-branch position), and the simulator then plays the mainline
move whenever it is legal. -/
theorem c7_variation_capture {Pos : Type} (api : ChessApi Pos)
    (m1 m2 : String) (g1 g2 : PgnNode) (b : Pos) (bt : RepTree)
    (n : Nat) (sans : List String) (t' : RepTree)
    (hw : api.turnWhite b = true)
    (hp1 : api.pushOk b m1 = true)
    (hp2 : api.pushOk b m2 = true)
    (hne : m1 ≠ m2)
    (hrun : processWhiteNode api
        (PgnNode.mk (PgnForest.cons m1 g1 (PgnForest.cons m2 g2 PgnForest.nil))) b []
      = some t') :
    mainlineFirst t' (api.fen b) m1 (api.fen (api.push b m1)) m2 ∧
    (api.isLegal b m1 = true →
      simulateFuel api t' bt (n + 1) b sans =
        simulateFuel api t' bt n (api.push b m1) (sans ++ [api.san b m1])) := by
  simp only [processWhiteNode, processWhiteForest, hw, hp1, hp2, if_true] at hrun
  rcases Option.bind_eq_some.mp hrun with ⟨tA, h1, h2⟩
  rcases Option.bind_eq_some.mp h2 with ⟨tB, h3, h4⟩
  obtain rfl : tB = t' := Option.some.inj h4
  have hlook0 : lookupFen
      (treeInsert [] (api.fen b) m1 (api.fen (api.push b m1))) (api.fen b) =
      some [(m1, api.fen (api.push b m1))] := by
    simp [treeInsert, lookupFen]
  obtain ⟨e, he⟩ := processWhiteNode_le api g1 (api.push b m1) _ tA h1 _ _ hlook0
  simp only [List.singleton_append] at he
  have hlookB := lookupFen_treeInsert_found m2 (api.fen (api.push b m2)) he
  have hsplit : dictInsert ((m1, api.fen (api.push b m1)) :: e) m2
      (api.fen (api.push b m2)) =
      (m1, api.fen (api.push b m1)) :: dictInsert e m2 (api.fen (api.push b m2)) := by
    simp [dictInsert, hne]
  obtain ⟨e2, he2⟩ := processWhiteNode_le api g2 (api.push b m2) _ tB h3 _ _
    (by rw [hlookB, hsplit])
  have hmain : lookupFen tB (api.fen b) =
      some ((m1, api.fen (api.push b m1)) ::
        (dictInsert e m2 (api.fen (api.push b m2)) ++ e2)) := by
    simpa using he2
  constructor
  · refine ⟨_, hmain, ?_⟩
    obtain ⟨c0, hc0⟩ := Option.isSome_iff_exists.mp
      (lookupMove_dictInsert_isSome e m2 (api.fen (api.push b m2)))
    rw [lookupMove_append_of_some e2 hc0]
    rfl
  · intro hleg
    simp [simulateFuel, hw, hmain, hleg]

/-- Witness for C7 at concrete inputs: mainline "b" and variation "c"
from the start position. -/
theorem c7_variation_capture_witness :
    mainlineFirst [("", [("b", "a"), ("c", "a")])] (natApi.fen 0) "b"
      (natApi.fen (natApi.push 0 "b")) "c" ∧
    simulateFuel natApi [("", [("b", "a"), ("c", "a")])] [] 2 0 [] =
      simulateFuel natApi [("", [("b", "a"), ("c", "a")])] [] 1 1 ["b"] :=
  ⟨(c7_variation_capture natApi "b" "c" (PgnNode.mk PgnForest.nil)
      (PgnNode.mk PgnForest.nil) 0 [] 1 [] [("", [("b", "a"), ("c", "a")])]
      (by decide) (by decide) (by decide) (by decide) (by decide)).1,
   (c7_variation_capture natApi "b" "c" (PgnNode.mk PgnForest.nil)
      (PgnNode.mk PgnForest.nil) 0 [] 1 [] [("", [("b", "a"), ("c", "a")])]
      (by decide) (by decide) (by decide) (by decide) (by decide)).2 (by decide)⟩
